import Mathlib

/-!
A shallow embedding of the ASCII-table parser `tabular.py` (functions `parse`
and `parse_lines`), together with proofs about the claims of its
specification.  Lines and strings are modelled as `List Char`; Python's
`IndexError` (and the `TypeError` that `range(cs, None)` would raise) are
modelled with `Except Err`.  All recursive definitions are structural (or
fuel-based with provably sufficient fuel) so that concrete runs reduce in the
kernel.
-/

deriving instance DecidableEq for Except

/-- Characters treated as whitespace by Python's `str.strip` and `\s` (ASCII range). -/
def isWs (c : Char) : Bool :=
  c == ' ' || c == '\t' || c == '\n' || c == '\r' || c == '\x0b' || c == '\x0c'

/-- A line of input, as a list of characters. -/
abbrev Line := List Char

/-- A string value (header text, key or cell), as a list of characters. -/
abbrev Str := List Char

/-- Python `str.strip()`: remove whitespace from both ends. -/
def pyStrip (l : List Char) : List Char :=
  ((l.dropWhile isWs).reverse.dropWhile isWs).reverse

/-- The exceptions the Python code can raise while parsing. -/
inductive Err where
  | indexError
  | typeError
  deriving DecidableEq, Repr

/-- Column justification tag: `"l"` or `"r"` in the Python code. -/
inductive Jst where
  | left
  | right
  deriving DecidableEq, Repr

/-- A column span `(start, end, justification)`; `none` is Python's `None`
(unbounded final span). -/
abbrev Span := Nat × Option Nat × Jst

/-- `tabular.py` line 42: drop lines that are empty after removing all `-` and
`+` characters and stripping whitespace. -/
def sanitizeLines (lines : List Line) : List Line :=
  lines.filter (fun x => !(pyStrip (x.filter (fun c => c != '-' && c != '+'))).isEmpty)

/-- `re.sub(r"(\S):(\S)", r"\1 \2", ...)` scanning step: on a match, emit
`X Y` and resume after the match; otherwise advance one character.  The fuel
only bounds the number of steps; the list shrinks on every step, so any fuel
of at least the list's length gives the untruncated result. -/
def subColonsGo : Nat → List Char → List Char
  | 0, l => l
  | _, [] => []
  | fuel+1, x :: rest =>
    match rest with
    | c :: y :: rest2 =>
      if c == ':' && !isWs x && !isWs y then x :: ' ' :: y :: subColonsGo fuel rest2
      else x :: subColonsGo fuel rest
    | _ => x :: subColonsGo fuel rest

/-- `tabular.py` line 59: `re.sub(r"(\S):(\S)", r"\1 \2", lines[0])`. -/
def subColons (l : List Char) : List Char := subColonsGo l.length l

/-- Scan for positions `i+1` such that `line[i] = divider` and
`line[i+1] ≠ divider`; `a` is the character at index `i`. -/
def lbScanGo (div : Char) : Char → List Char → Nat → List Nat
  | _, [], _ => []
  | a, b :: rest, i =>
    if a == div && b != div then (i+1) :: lbScanGo div b rest (i+1)
    else lbScanGo div b rest (i+1)

/-- Positions `i+1` such that `line[i] = divider` and `line[i+1] ≠ divider`
(`tabular.py` lines 61-63, regex `" [^ ]"` resp. `"\|[^|]"`; matches of this
pattern can never overlap, so the regex scan finds every such position). -/
def lbScan (div : Char) : List Char → List Nat
  | [] => []
  | a :: rest => lbScanGo div a rest 0

/-- Scan for positions `i+1` such that `line[i] ≠ divider` and
`line[i+1] = divider`; `a` is the character at index `i`. -/
def rbScanGo (div : Char) : Char → List Char → Nat → List Nat
  | _, [], _ => []
  | a, b :: rest, i =>
    if a != div && b == div then (i+1) :: rbScanGo div b rest (i+1)
    else rbScanGo div b rest (i+1)

/-- Positions `i+1` such that `line[i] ≠ divider` and `line[i+1] = divider`
(`tabular.py` lines 64-66, regex `"[^ ] "` resp. `"[^|]\|"`). -/
def rbScan (div : Char) : List Char → List Nat
  | [] => []
  | a :: rest => rbScanGo div a rest 0

/-- `tabular.py` lines 84-92: check one left-boundary candidate against one data
line.  `line[lb]` is evaluated first, so `lb = len(line)` raises `IndexError`
(the guard only catches `lb > len(line)`); the second conjunct's `line[lb-1]`
is always in range by then.  Only called with the line nonempty or `lb ≥ 1`. -/
def checkLb (div : Char) (line : Line) (lb : Nat) : Except Err Bool :=
  if lb = 0 then
    match line.get? 0 with
    | some c => .ok (c != div)
    | none => .error .indexError
  else if line.length < lb then .ok false
  else
    match line.get? lb with
    | none => .error .indexError
    | some c => .ok (c != div && line.getD (lb-1) div == div)

/-- `tabular.py` lines 93-99: check one right-boundary candidate against one
data line.  `line[rb-1]` is evaluated first and short-circuits the `and`, so
`line[rb]` (which raises when `rb = len(line)`) is only reached when
`line[rb-1] ≠ divider`.  Only called with `rb ≥ 1`. -/
def checkRb (div : Char) (line : Line) (rb : Nat) : Except Err Bool :=
  if line.length < rb then .ok false
  else
    match line.get? (rb-1) with
    | none => .error .indexError
    | some c =>
      if c == div then .ok false
      else
        match line.get? rb with
        | none => .error .indexError
        | some c2 => .ok (c2 == div)

/-- Check a candidate boundary against every data line, skipping empty lines
(`tabular.py` lines 81-99); `all(...)` of the collected results. -/
def checkLineAll (check : Line → Nat → Except Err Bool) (b : Nat) :
    List Line → Except Err Bool
  | [] => .ok true
  | l :: ls =>
    if l.isEmpty then checkLineAll check b ls
    else do
      let r ← check l b
      let rest ← checkLineAll check b ls
      .ok (r && rest)

/-- `tabular.py` lines 100-101: keep the candidates that validate on every data
line. -/
def validBoundaries (check : Line → Nat → Except Err Bool) (dls : List Line) :
    List Nat → Except Err (List Nat)
  | [] => .ok []
  | b :: bs => do
    let okb ← checkLineAll check b dls
    let rest ← validBoundaries check dls bs
    .ok (if okb then b :: rest else rest)

/-- The merge loop of `tabular.py` lines 102-115: repeatedly pop the smaller
head of the two boundary lists (ties go to the right-boundary list, which
cannot happen for boundaries of one header), emitting `(position, next, tag)`.
Fuel is the total number of boundaries, which is exactly enough. -/
def mergeGo : Nat → Nat → List Nat → List Nat → List (Nat × Nat × Jst)
  | 0, _, _, _ => []
  | _, _, [], [] => []
  | fuel+1, pos, l :: ls, [] => (pos, l, Jst.left) :: mergeGo fuel l ls []
  | fuel+1, pos, [], r :: rs => (pos, r, Jst.right) :: mergeGo fuel r [] rs
  | fuel+1, pos, l :: ls, r :: rs =>
    if l < r then (pos, l, Jst.left) :: mergeGo fuel l ls (r :: rs)
    else (pos, r, Jst.right) :: mergeGo fuel r (l :: ls) rs

/-- Lines that are non-blank in the sense of `line.strip()` being truthy. -/
def nonBlank (lines : List Line) : List Line :=
  lines.filter (fun l => !(pyStrip l).isEmpty)

/-- Is some non-blank line too short to be indexed at `i`? -/
def anyShort (nb : List Line) (i : Nat) : Bool :=
  nb.any (fun l => decide (l.length ≤ i))

/-- `tabular.py` lines 135-145: search `range(cs, ce)` for the first offset at
which every non-blank line carries the divider.  The list comprehension
`[line[ncs] == divider for line in lines if line.strip()]` is built in full, so
a line shorter than the probed offset raises `IndexError` (there is no
`try/except` here). -/
def findSplitGo (div : Char) (nb : List Line) : Nat → Nat → Except Err (Option Nat)
  | _, 0 => .ok none
  | ncs, fuel+1 =>
    if anyShort nb ncs then .error .indexError
    else if nb.all (fun l => l.getD ncs div == div) then .ok (some ncs)
    else findSplitGo div nb (ncs+1) fuel

/-- `tabular.py` lines 122-150: possibly split one bounded right-justified
span.  The start test wraps its comprehension in `try/except IndexError`,
replacing the result with `[False]` (hence no split) when some non-blank line
is shorter than the span's start. -/
def splitRight (div : Char) (nb : List Line) (cs ce : Nat) : Except Err (List Span) :=
  if !anyShort nb cs && nb.all (fun l => l.getD cs div != div) then
    match findSplitGo div nb cs (ce - cs) with
    | .error e => .error e
    | .ok (some ncs) => .ok [(cs, some ncs, Jst.left), (ncs, some ce, Jst.right)]
    | .ok none => .ok [(cs, some ce, Jst.right)]
  else .ok [(cs, some ce, Jst.right)]

/-- `tabular.py` lines 121-152: possibly split one span.  Left spans pass
through.  A right span with unbounded end would hit `range(cs, None)`, a
`TypeError`; it cannot arise because the final appended span is tagged left. -/
def splitOne (div : Char) (nb : List Line) : Span → Except Err (List Span)
  | (cs, some ce, Jst.right) => splitRight div nb cs ce
  | (_, none, Jst.right) => .error .typeError
  | (cs, some ce, Jst.left) => .ok [(cs, some ce, Jst.left)]
  | (cs, none, Jst.left) => .ok [(cs, none, Jst.left)]

/-- Apply `splitOne` to every span, concatenating the results
(`tabular.py` lines 120-153). -/
def splitCore (div : Char) (nb : List Line) : List Span → Except Err (List Span)
  | [] => .ok []
  | c :: t => do
    let seg ← splitOne div nb c
    let rest ← splitCore div nb t
    .ok (seg ++ rest)

/-- The Column Splitter as the source has it: `for line in lines if
line.strip()` ranges over ALL lines of the (sanitized) table, the header
included. -/
def splitColumns (div : Char) (lines : List Line) (cols : List Span) :
    Except Err (List Span) :=
  splitCore div (nonBlank lines) cols

/-- Modelled from the spec: the Column Splitter as §4.4 words it, quantifying
only over the data lines (the lines after the header), ignoring blank lines.
Used to compare the spec's description with the source's `splitColumns`. -/
def splitColumnsDataOnly (div : Char) (lines : List Line) (cols : List Span) :
    Except Err (List Span) :=
  splitCore div (nonBlank (lines.drop 1)) cols

/-- Python slice `l[s:e]` (total, clamping). -/
def pySlice (l : List Char) (s : Nat) (e : Option Nat) : List Char :=
  match e with
  | none => l.drop s
  | some e => (l.take e).drop s

/-- The decimal digit characters, for rendering occurrence counters the way
`"{}_{}".format` does. -/
def digitChar10 : Nat → Char
  | 0 => '0' | 1 => '1' | 2 => '2' | 3 => '3' | 4 => '4'
  | 5 => '5' | 6 => '6' | 7 => '7' | 8 => '8' | 9 => '9'
  | _ => '*'

/-- Fuel-driven decimal rendering; `fuel > n` is always sufficient. -/
def natDigitsGo : Nat → Nat → List Char
  | 0, _ => []
  | fuel+1, n =>
    if n < 10 then [digitChar10 n]
    else natDigitsGo fuel (n / 10) ++ [digitChar10 (n % 10)]

/-- Decimal rendering of a natural number, as Python's `str`/`format` does. -/
def natDigits (n : Nat) : List Char := natDigitsGo (n+1) n

/-- `set.add`: insertion-ordered, membership-deduplicated.  (Python's `set`
iteration order is unspecified; it only matters when two or more distinct
header texts are bumped, which none of the runs below exercise.) -/
def bumpAdd (bs : List Str) (h : Str) : List Str :=
  if h ∈ bs then bs else bs ++ [h]

/-- The inner `while True` of `tabular.py` lines 166-173: find the first
occurrence counter not yet used for this header text, recording the text as
bumpable on every collision (when non-empty).  Fuel `ks.length + 1` always
suffices, because at most `ks.length` counters are taken. -/
def probeGo (this : Str) (ks : List (Str × Nat)) : Nat → Nat → List Str → Nat × List Str
  | 0, incr, bs => (incr, bs)
  | fuel+1, incr, bs =>
    if (this, incr) ∈ ks then
      probeGo this ks fuel (incr+1) (if this = [] then bs else bumpAdd bs this)
    else (incr, bs)

/-- `tabular.py` lines 161-173: assign each header text its occurrence
counter, collecting the bumpable texts. -/
def newkeysGo : List Str → List (Str × Nat) → List Str → List (Str × Nat) × List Str
  | [], ks, bs => (ks, bs)
  | h :: t, ks, bs =>
    let p := probeGo h ks (ks.length + 1) 1 bs
    newkeysGo t (ks ++ [(h, p.1)]) p.2

/-- `tabular.py` lines 174-178: first occurrences keep the bare text, repeats
get `"{}_{}".format(h, i)`. -/
def fmtKey : Str × Nat → Str
  | (h, i) => if i = 1 then h else h ++ '_' :: natDigits i

/-- `newheaders.index(bump)` followed by the `"{}_1"` rewrite
(`tabular.py` lines 179-181): rename the first list entry equal to `bump`. -/
def bumpListOne : List Str → Str → List Str
  | [], _ => []
  | x :: t, b => if x = b then (x ++ ['_', '1']) :: t else x :: bumpListOne t b

/-- The Header Deduplicator (`tabular.py` lines 160-181). -/
def dedupHeaders (headers : List Str) : List Str :=
  (newkeysGo headers [] []).2.foldl bumpListOne ((newkeysGo headers [] []).1.map fmtKey)

/-- Python `key.startswith(divider)` for a single-character divider. -/
def startsWithChar (div : Char) : Str → Bool
  | c :: _ => c == div
  | [] => false

/-- `tabular.py` lines 184-193: slice a data line by the column spans, trim,
zip with the final keys, and keep only pairs with non-empty key, non-empty
value, and a key not starting with the divider. -/
def rowPairs (div : Char) (nhs : List Str) (cols : List Span) (line : Line) :
    List (Str × Str) :=
  (nhs.zip (cols.map (fun c => pyStrip (pySlice line c.1 c.2.1)))).filter
    (fun kv => !kv.1.isEmpty && !kv.2.isEmpty && !startsWithChar div kv.1)

/-- One `OrderedDict` insertion: an existing key keeps its position but takes
the new value; a new key is appended. -/
def odInsert (d : List (Str × Str)) (p : Str × Str) : List (Str × Str) :=
  if p.1 ∈ d.map Prod.fst then
    d.map (fun q => if q.1 = p.1 then (q.1, p.2) else q)
  else d ++ [p]

/-- `OrderedDict(valid_linedata)` (`tabular.py` line 195). -/
def odFromPairs (ps : List (Str × Str)) : List (Str × Str) :=
  ps.foldl odInsert []

/-- `if "|" in d: del d["|"]` (`tabular.py` lines 196-197); keys are unique in
an `OrderedDict`, so deleting the key is removing every entry carrying it. -/
def delKey (k : Str) (d : List (Str × Str)) : List (Str × Str) :=
  d.filter (fun q => q.1 != k)

/-- `tabular.py` lines 183-198 for one data line: `None` when `valid_linedata`
is empty (no record appended), otherwise the record after the `"|"` deletion. -/
def extractRow (div : Char) (nhs : List Str) (cols : List Span) (line : Line) :
    Option (List (Str × Str)) :=
  if (rowPairs div nhs cols line).isEmpty then none
  else some (delKey ['|'] (odFromPairs (rowPairs div nhs cols line)))

/-- All intermediate results of `parse_lines` up to (and including) the final
column spans and deduplicated keys. -/
structure Stages where
  divider : Char
  headers : List Str
  newheaders : List Str
  columns : List Span
  datalines : List Line
  deriving DecidableEq, Repr

/-- `tabular.py` lines 102-116: merge the validated boundaries into spans and
append the final unbounded span; an empty merge is `columns[-1]` on an empty
list, an `IndexError`. -/
def mergeColumns (vlb vrb : List Nat) : Except Err (List Span) :=
  match (mergeGo (vlb.length + vrb.length) 0 vlb vrb).getLast? with
  | none => .error .indexError
  | some lastSpan =>
    .ok ((mergeGo (vlb.length + vrb.length) 0 vlb vrb).map
          (fun c => (c.1, some c.2.1, c.2.2)) ++ [(lastSpan.2.1, none, Jst.left)])

/-- The stages after divider detection and header normalization: `line0` is
the normalized header, `rest` the data lines (`tabular.py` lines 61-181). -/
def stagesFrom (divider : Char) (line0 : Line) (rest : List Line) : Except Err Stages := do
  let vlb ← validBoundaries (checkLb divider) rest (0 :: lbScan divider line0)
  let vrb ← validBoundaries (checkRb divider) rest (rbScan divider line0)
  let cols0 ← mergeColumns vlb vrb
  let cols ← splitColumns divider (line0 :: rest) cols0
  let headers := cols.map (fun c => pyStrip (pySlice line0 c.1 c.2.1))
  .ok ⟨divider, headers, dedupHeaders headers, cols, rest⟩

/-- `tabular.py` lines 46-52: the divider is `'|'` iff the (pre-normalization)
header contains more than one `'|'`. -/
def dividerOf (line0 : Line) : Char :=
  if line0.count '|' > 1 then '|' else ' '

/-- `tabular.py` lines 39-181: sanitize, pick the divider, normalize the
header, infer and validate boundaries, merge them into spans, split glued
right columns, extract and deduplicate the header keys. -/
def parseStages (lines : List Line) : Except Err Stages :=
  match sanitizeLines lines with
  | [] => .error .indexError
  | line0 :: rest => stagesFrom (dividerOf line0) (subColons line0) rest

/-- `parse_lines` (`tabular.py` lines 39-199): the stages, then one record per
data line that yields any valid pair. -/
def parse_lines (lines : List Line) : Except Err (List (List (Str × Str))) := do
  let st ← parseStages lines
  .ok (st.datalines.filterMap (extractRow st.divider st.newheaders st.columns))

/-- Non-overlapping `\s\s` match counting step; fuel as in `subColonsGo`. -/
def findallWsGo : Nat → List Char → Nat
  | 0, _ => 0
  | _, [] => 0
  | fuel+1, a :: t =>
    match t with
    | b :: rest =>
      if isWs a && isWs b then 1 + findallWsGo fuel rest else findallWsGo fuel t
    | _ => 0

/-- The number of non-overlapping `re.findall(r"\s\s", line)` matches
(`tabular.py` lines 33-34). -/
def findallWsPairs (l : List Char) : Nat := findallWsGo l.length l

/-- Adjacent-pair scan step for `hasWsPair`; `a` is the previous character. -/
def hasWsPairGo : Char → List Char → Bool
  | _, [] => false
  | a, b :: rest => (isWs a && isWs b) || hasWsPairGo b rest

/-- Does the line contain two adjacent whitespace characters? -/
def hasWsPair : List Char → Bool
  | [] => false
  | a :: rest => hasWsPairGo a rest

/-- Adjacent-pair scan step for `hasSpacePair`; `a` is the previous character. -/
def hasSpacePairGo : Char → List Char → Bool
  | _, [] => false
  | a, b :: rest => (a == ' ' && b == ' ') || hasSpacePairGo b rest

/-- Does the line contain two adjacent space characters (a run of two or more
spaces)? -/
def hasSpacePair : List Char → Bool
  | [] => false
  | a :: rest => hasSpacePairGo a rest

/-- The line-skip heuristic condition of `parse` (`tabular.py` lines 33-34):
drop the first line iff it has no `\s\s` match and the second line has one. -/
def dwimDrop (l0 l1 : Line) : Bool :=
  findallWsPairs l0 == 0 && !(findallWsPairs l1 == 0)

/-- `parse` (`tabular.py` lines 10-36) on an in-memory line list: apply the
skip, or the one-line dwim heuristic when the skip is 0 (indexing `lines[0]`
and `lines[1]` raises when fewer than two lines are given). -/
def parse (lines : List Line) (skip : Nat) : Except Err (List (List (Str × Str))) :=
  if skip ≠ 0 then parse_lines (lines.drop skip)
  else
    match lines with
    | l0 :: l1 :: _ =>
      if dwimDrop l0 l1 then parse_lines (lines.drop 1) else parse_lines lines
    | _ => .error .indexError

/-- Spans as a chain from position `p` to final end `q`: the first span starts
at `p`, each bounded span's end is the next span's start, and the last span's
end is `q` (`none` for the unbounded final span). -/
def chainTo (p : Nat) : List Span → Option Nat → Bool
  | [], _ => false
  | (s, eo, _) :: t, q =>
    match t with
    | [] => s == p && eo == q
    | _ :: _ =>
      match eo with
      | some e => s == p && chainTo e t q
      | none => false

/-- The merge loop's output as a chain: each emitted span starts where the
previous one ended. -/
def bchain (p : Nat) : List (Nat × Nat × Jst) → Bool
  | [] => true
  | (s, e, _) :: t => s == p && bchain e t

/-- Does the string end in an underscore followed by one or more digits
(the shape of every suffixed occurrence key `h ++ "_<n>"`)? -/
def endsUDigits (s : Str) : Bool :=
  !((s.reverse.takeWhile Char.isDigit).isEmpty) &&
    (s.reverse.getD (s.reverse.takeWhile Char.isDigit).length '?' == '_')

/-- How many of the pairs carry the key `k`. -/
def countKey (k : Str) (ps : List (Str × Str)) : Nat :=
  ps.countP (fun q => q.1 == k)

/-! ### Helper lemmas about the `\s\s` scan -/

theorem findallWsGo_eq_zero_iff :
    ∀ fuel l, l.length ≤ fuel → (findallWsGo fuel l = 0 ↔ hasWsPair l = false) := by
  intro fuel
  induction fuel with
  | zero =>
    intro l hl
    have : l = [] := List.length_eq_zero.mp (Nat.le_zero.mp hl)
    subst this
    simp [findallWsGo, hasWsPair]
  | succ fuel ih =>
    intro l hl
    match l with
    | [] => simp [findallWsGo, hasWsPair]
    | [a] => simp [findallWsGo, hasWsPair, hasWsPairGo]
    | a :: b :: rest =>
      simp only [findallWsGo, hasWsPair, hasWsPairGo]
      by_cases hab : (isWs a && isWs b) = true
      · simp [hab]
      · have h1 : (b :: rest).length ≤ fuel := by
          simp at hl ⊢; omega
        have := ih (b :: rest) h1
        simp only [hasWsPair] at this
        simp [hab, this]

theorem findallWsPairs_eq_zero_iff (l : List Char) :
    findallWsPairs l = 0 ↔ hasWsPair l = false :=
  findallWsGo_eq_zero_iff l.length l (Nat.le_refl _)

/-! ### Claim theorems -/

/-- C8, counterexample: the first line `"a\t\tb"` contains no run of two or
more consecutive *space* characters (its only adjacent whitespace pair is two
tabs) while the second line `"x  y"` does contain one, so the claim says the
first line is dropped; but `dwimDrop` (the condition the code computes with
`re.findall(r"\s\s", ...)`) is false there, so the line is kept. -/
theorem claim_C8_counterexample :
    dwimDrop "a\t\tb".toList "x  y".toList = false ∧
    (!hasSpacePair "a\t\tb".toList && hasSpacePair "x  y".toList) = true := by
  constructor
  · decide
  · decide

/-- C8, amended: with skip 0 the first line is dropped iff the first line
contains no two adjacent *whitespace* characters (any of `\s`, so tabs and the
trailing newline count) while the second line contains such an adjacent pair. -/
theorem claim_C8 (l0 l1 : Line) :
    dwimDrop l0 l1 = (!hasWsPair l0 && hasWsPair l1) := by
  have h0 := findallWsPairs_eq_zero_iff l0
  have h1 := findallWsPairs_eq_zero_iff l1
  unfold dwimDrop
  cases hw0 : hasWsPair l0 <;> cases hw1 : hasWsPair l1 <;>
    simp [hw0, hw1] at h0 h1 <;> simp [h0, h1]

/-- C4, counterexample: a candidate boundary position equal to the line's
length is not "marked invalid" — validation faults with `IndexError` there
(for a left boundary always, for a right boundary when the last character is
not the divider), because the guard in the code only catches positions
strictly greater than the length. -/
theorem claim_C4_counterexample :
    "X".toList.length ≤ 1 ∧ checkLb ' ' "X".toList 1 = .error .indexError ∧
    "XY".toList.length ≤ 2 ∧ checkRb ' ' "XY".toList 2 = .error .indexError := by
  refine ⟨by decide, by decide, by decide, by decide⟩

/-- C4, amended: a candidate boundary position strictly beyond the line's
length is marked invalid for that line without faulting; a position equal to
the line's length reaches a direct index and raises `IndexError` instead
(see the counterexample). -/
theorem claim_C4 (div : Char) (line : Line) (b : Nat) (h : line.length < b) :
    checkLb div line b = .ok false ∧ checkRb div line b = .ok false := by
  have hb : ¬ b = 0 := by omega
  constructor
  · simp [checkLb, hb, h]
  · simp [checkRb, h]

theorem claim_C4_witness :
    "X".toList.length < 2 ∧
    (checkLb ' ' "X".toList 2 = .ok false ∧ checkRb ' ' "X".toList 2 = .ok false) :=
  ⟨by decide, claim_C4 ' ' "X".toList 2 (by decide)⟩

/-- C3, counterexample: after sanitization exactly one line (fewer than two)
remains, and parsing returns the empty record list instead of raising. -/
theorem claim_C3_counterexample :
    (sanitizeLines ["A B".toList]).length = 1 ∧ parse_lines ["A B".toList] = .ok [] := by
  constructor
  · decide
  · decide

/-- C3, amended: parsing raises (`IndexError`, surfaced as the malformed-table
failure) when *zero* lines remain after sanitization; with exactly one
remaining line it instead returns an empty record list. -/
theorem claim_C3 (lines : List Line) (h : sanitizeLines lines = []) :
    parse_lines lines = .error .indexError := by
  have hs : parseStages lines = .error .indexError := by
    unfold parseStages
    rw [h]
  unfold parse_lines
  rw [hs]
  rfl

theorem claim_C3_witness :
    sanitizeLines ["-+-".toList] = [] ∧ parse_lines ["-+-".toList] = .error .indexError :=
  ⟨by decide, claim_C3 _ (by decide)⟩

/-- C9, confirmed: a data line all of whose column slices trim to the empty
string yields no pair with a non-empty value, so `valid_linedata` is empty and
no record at all (in particular no empty record) is produced for that line —
`parse_lines` emits `st.datalines.filterMap (extractRow ...)`, and
`extractRow` returns `none` there. -/
theorem claim_C9 (div : Char) (nhs : List Str) (cols : List Span) (line : Line)
    (h : ∀ c ∈ cols, pyStrip (pySlice line c.1 c.2.1) = []) :
    extractRow div nhs cols line = none := by
  have hv : rowPairs div nhs cols line = [] := by
    unfold rowPairs
    rw [List.filter_eq_nil_iff]
    rintro ⟨k, v⟩ hkv
    have hvmem : v ∈ cols.map (fun c => pyStrip (pySlice line c.1 c.2.1)) :=
      (List.of_mem_zip hkv).2
    obtain ⟨c, hc, hvc⟩ := List.mem_map.mp hvmem
    have : v = [] := by rw [← hvc]; exact h c hc
    subst this
    simp
  unfold extractRow
  rw [hv]
  rfl

theorem claim_C9_witness :
    (∀ c ∈ ([((0:Nat), (none : Option Nat), Jst.left)] : List Span),
      pyStrip (pySlice "   ".toList c.1 c.2.1) = []) ∧
    extractRow ' ' [['A']] [((0:Nat), (none : Option Nat), Jst.left)] "   ".toList = none :=
  ⟨by decide, claim_C9 ' ' [['A']] _ _ (by decide)⟩

/-- C5, counterexample: on the table `["ZZZ D", "x 1 2"]` the merged spans
contain the right span `[0,3)`; the source splitter (which ranges over every
non-blank line, the header `"ZZZ D"` included) keeps it unsplit, while the
splitter the spec describes (data lines only) splits it at offset 1.  So the
split decision is not based only on the data lines. -/
theorem claim_C5_counterexample :
    parseStages (["ZZZ D", "x 1 2"].map String.toList) =
      .ok ⟨' ', ["", "ZZZ", "", "D"].map String.toList,
        ["", "ZZZ", "_2", "D"].map String.toList,
        [(0, some 0, Jst.left), (0, some 3, Jst.right), (3, some 4, Jst.left),
         (4, none, Jst.left)],
        ["x 1 2".toList]⟩ ∧
    splitColumns ' ' (["ZZZ D", "x 1 2"].map String.toList)
        [(0, some 0, Jst.left), (0, some 3, Jst.right), (3, some 4, Jst.left),
         (4, none, Jst.left)] =
      .ok [(0, some 0, Jst.left), (0, some 3, Jst.right), (3, some 4, Jst.left),
         (4, none, Jst.left)] ∧
    splitColumnsDataOnly ' ' (["ZZZ D", "x 1 2"].map String.toList)
        [(0, some 0, Jst.left), (0, some 3, Jst.right), (3, some 4, Jst.left),
         (4, none, Jst.left)] =
      .ok [(0, some 0, Jst.left), (0, some 1, Jst.left), (1, some 3, Jst.right),
         (3, some 4, Jst.left), (4, none, Jst.left)] := by
  refine ⟨by decide, by decide, by decide⟩

/-- C5, amended: both splitter tests quantify over every *non-blank line of
the whole table, the header line included* — the source splitter on a table
equals the spec's data-lines-only splitter run with the header prepended as if
it were a data line. -/
theorem claim_C5 (div : Char) (h : Line) (lines : List Line) (cols : List Span) :
    splitColumnsDataOnly div (h :: lines) cols = splitColumns div lines cols := rfl

/-! ### Helper lemmas about records -/

/-- `parse_lines` succeeds exactly by running the stages and extracting one
record per data line that yields any valid pair. -/
theorem parse_lines_ok (lines : List Line) (recs : List (List (Str × Str)))
    (h : parse_lines lines = .ok recs) :
    ∃ st, parseStages lines = .ok st ∧
      recs = st.datalines.filterMap (extractRow st.divider st.newheaders st.columns) := by
  unfold parse_lines at h
  cases hs : parseStages lines with
  | error e => rw [hs] at h; exact Except.noConfusion h
  | ok st =>
    rw [hs] at h
    exact ⟨st, rfl, (Except.ok.inj h).symm⟩

/-- Membership in an `odInsert` result: the key was already present or is the
inserted pair's key. -/
theorem odInsert_key_mem (d : List (Str × Str)) (p kv : Str × Str)
    (h : kv ∈ odInsert d p) : (∃ v', (kv.1, v') ∈ d) ∨ kv.1 = p.1 := by
  unfold odInsert at h
  by_cases hc : p.1 ∈ d.map Prod.fst
  · rw [if_pos hc] at h
    obtain ⟨q, hq, hqe⟩ := List.mem_map.mp h
    by_cases hq1 : q.1 = p.1
    · right
      rw [if_pos hq1] at hqe
      rw [← hqe]
      exact hq1
    · left
      rw [if_neg hq1] at hqe
      exact ⟨kv.2, by rw [Prod.mk.eta, ← hqe]; exact hq⟩
  · rw [if_neg hc] at h
    rcases List.mem_append.mp h with hd | hp
    · exact Or.inl ⟨kv.2, by rw [Prod.mk.eta]; exact hd⟩
    · right
      rw [List.mem_singleton.mp hp]

/-- Membership in an `OrderedDict` built from pairs: every key comes from the
pairs (or from the accumulator). -/
theorem odFoldl_key_mem :
    ∀ (ps : List (Str × Str)) (acc : List (Str × Str)) (kv : Str × Str),
      kv ∈ ps.foldl odInsert acc →
      (∃ v', (kv.1, v') ∈ acc) ∨ (∃ v', (kv.1, v') ∈ ps) := by
  intro ps
  induction ps with
  | nil => intro acc kv h; exact Or.inl ⟨kv.2, by rw [Prod.mk.eta]; exact h⟩
  | cons p t ih =>
    intro acc kv h
    rcases ih (odInsert acc p) kv h with ⟨v', hv'⟩ | ⟨v', hv'⟩
    · rcases odInsert_key_mem acc p (kv.1, v') hv' with ⟨v'', hv''⟩ | hk
      · exact Or.inl ⟨v'', hv''⟩
      · exact Or.inr ⟨p.2, by rw [hk, Prod.mk.eta]; exact List.mem_cons_self _ _⟩
    · exact Or.inr ⟨v', List.mem_cons_of_mem _ hv'⟩

/-- Every entry of a produced record: its key is not `"|"` and the key occurs
among the line's valid pairs. -/
theorem extractRow_mem (div : Char) (nhs : List Str) (cols : List Span)
    (line : Line) (r : List (Str × Str)) (kv : Str × Str)
    (hr : extractRow div nhs cols line = some r) (hkv : kv ∈ r) :
    kv.1 ≠ ['|'] ∧ ∃ v', (kv.1, v') ∈ rowPairs div nhs cols line := by
  unfold extractRow at hr
  by_cases hv : (rowPairs div nhs cols line).isEmpty = true
  · rw [if_pos hv] at hr; cases hr
  · rw [if_neg hv] at hr
    have hr' : r = delKey ['|'] (odFromPairs (rowPairs div nhs cols line)) :=
      (Option.some.injEq _ _ ▸ hr).symm
    rw [hr'] at hkv
    unfold delKey at hkv
    have hmf := List.mem_filter.mp hkv
    constructor
    · simpa using hmf.2
    · rcases odFoldl_key_mem _ [] kv hmf.1 with ⟨_, hv'⟩ | h
      · cases hv'
      · exact h

/-- A key occurring among a line's valid pairs is non-empty (the filter in
`tabular.py` line 192 demands it). -/
theorem rowPairs_key_ne_nil (div : Char) (nhs : List Str) (cols : List Span)
    (line : Line) (k v : Str) (h : (k, v) ∈ rowPairs div nhs cols line) :
    k ≠ [] := by
  unfold rowPairs at h
  have := (List.mem_filter.mp h).2
  simp at this
  intro hk
  rw [hk] at this
  simp at this

/-- C2, counterexample: in the table `["A     B", "x  y  z"]` the span `[1,6)`
has header slice `"     "`, which trims to the empty string (third entry of
the headers), yet because the empty header text occurs more than once its
second occurrence receives the key `"_2"`, which is materialized in the
record as `("_2", "y")`. -/
theorem claim_C2_counterexample :
    parseStages (["A     B", "x  y  z"].map String.toList) =
      .ok ⟨' ', ["", "A", "", "B"].map String.toList,
        ["", "A", "_2", "B"].map String.toList,
        [(0, some 0, Jst.left), (0, some 1, Jst.right), (1, some 6, Jst.left),
         (6, none, Jst.left)],
        ["x  y  z".toList]⟩ ∧
    parse_lines (["A     B", "x  y  z"].map String.toList) =
      .ok [[("A".toList, "x".toList), ("_2".toList, "y".toList),
            ("B".toList, "z".toList)]] := by
  refine ⟨by decide, by decide⟩

/-- C2, amended: the *empty string itself* is never materialized as a record
key (the first occurrence of an empty header keeps the bare empty key and is
filtered out); but a repeated empty header text is suffixed to `"_n"`, which
is non-empty and can be materialized (see the counterexample). -/
theorem claim_C2 (lines : List Line) (recs : List (List (Str × Str)))
    (h : parse_lines lines = .ok recs) (r : List (Str × Str)) (hr : r ∈ recs)
    (kv : Str × Str) (hkv : kv ∈ r) : kv.1 ≠ [] := by
  obtain ⟨st, hst, hrecs⟩ := parse_lines_ok lines recs h
  rw [hrecs] at hr
  obtain ⟨line, _, hex⟩ := List.mem_filterMap.mp hr
  obtain ⟨-, v', hv'⟩ := extractRow_mem _ _ _ _ _ _ hex hkv
  exact rowPairs_key_ne_nil _ _ _ _ _ _ hv'

theorem claim_C2_witness :
    parse_lines (["A     B", "x  y  z"].map String.toList) =
      .ok [[("A".toList, "x".toList), ("_2".toList, "y".toList),
            ("B".toList, "z".toList)]] ∧
    (("_2".toList, "y".toList) : Str × Str).1 ≠ [] :=
  ⟨by decide,
    claim_C2 (["A     B", "x  y  z"].map String.toList)
      [[("A".toList, "x".toList), ("_2".toList, "y".toList), ("B".toList, "z".toList)]]
      (by decide)
      [("A".toList, "x".toList), ("_2".toList, "y".toList), ("B".toList, "z".toList)]
      (by decide) ("_2".toList, "y".toList) (by decide)⟩

/-- C6, counterexample: in the table `["A  |  B", "x  y  z"]` the divider is
`' '` (the header has only one `'|'`), the line's valid pairs contain
`("|", "y")`, yet the produced record does not keep it — the
`del d["|"]` in `tabular.py` lines 196-197 runs regardless of the divider. -/
theorem claim_C6_counterexample :
    parseStages (["A  |  B", "x  y  z"].map String.toList) =
      .ok ⟨' ', ["", "A", "", "|", "", "B"].map String.toList,
        ["", "A", "_2", "|", "_3", "B"].map String.toList,
        [(0, some 0, Jst.left), (0, some 1, Jst.right), (1, some 3, Jst.left),
         (3, some 4, Jst.right), (4, some 6, Jst.left), (6, none, Jst.left)],
        ["x  y  z".toList]⟩ ∧
    rowPairs ' ' (["", "A", "_2", "|", "_3", "B"].map String.toList)
        [(0, some 0, Jst.left), (0, some 1, Jst.right), (1, some 3, Jst.left),
         (3, some 4, Jst.right), (4, some 6, Jst.left), (6, none, Jst.left)]
        "x  y  z".toList =
      [("A".toList, "x".toList), ("|".toList, "y".toList), ("B".toList, "z".toList)] ∧
    parse_lines (["A  |  B", "x  y  z"].map String.toList) =
      .ok [[("A".toList, "x".toList), ("B".toList, "z".toList)]] := by
  refine ⟨by decide, by decide, by decide⟩

/-- C6, amended: a pair whose key is exactly `"|"` is dropped from the record
*regardless of the detected divider* — no record ever carries the key `"|"`. -/
theorem claim_C6 (lines : List Line) (recs : List (List (Str × Str)))
    (h : parse_lines lines = .ok recs) (r : List (Str × Str)) (hr : r ∈ recs)
    (kv : Str × Str) (hkv : kv ∈ r) : kv.1 ≠ ['|'] := by
  obtain ⟨st, hst, hrecs⟩ := parse_lines_ok lines recs h
  rw [hrecs] at hr
  obtain ⟨line, _, hex⟩ := List.mem_filterMap.mp hr
  exact (extractRow_mem _ _ _ _ _ _ hex hkv).1

theorem claim_C6_witness :
    parse_lines (["A  |  B", "x  y  z"].map String.toList) =
      .ok [[("A".toList, "x".toList), ("B".toList, "z".toList)]] ∧
    (("A".toList, "x".toList) : Str × Str).1 ≠ ['|'] :=
  ⟨by decide,
    claim_C6 (["A  |  B", "x  y  z"].map String.toList)
      [[("A".toList, "x".toList), ("B".toList, "z".toList)]] (by decide)
      [("A".toList, "x".toList), ("B".toList, "z".toList)]
      (by decide) ("A".toList, "x".toList) (by decide)⟩

/-- C1, counterexample: on the table `["A   A   A_2", "x   y   z  "]` the
Header Deduplicator produces the final keys
`["", "A_1", "_2", "A_2", "_3", "A_2"]`: the raw third header `"A_2"` collides
with the suffixed second occurrence of `"A"`, so the non-empty final keys
contain a duplicate. -/
theorem claim_C1_counterexample :
    parseStages (["A   A   A_2", "x   y   z  "].map String.toList) =
      .ok ⟨' ', ["", "A", "", "A", "", "A_2"].map String.toList,
        ["", "A_1", "_2", "A_2", "_3", "A_2"].map String.toList,
        [(0, some 0, Jst.left), (0, some 1, Jst.right), (1, some 4, Jst.left),
         (4, some 5, Jst.right), (5, some 8, Jst.left), (8, none, Jst.left)],
        ["x   y   z  "].map String.toList⟩ ∧
    ¬ ((["", "A_1", "_2", "A_2", "_3", "A_2"].map String.toList).filter
        (fun k => !k.isEmpty)).Nodup := by
  refine ⟨by decide, by decide⟩

/-! ### Helper lemmas for span tiling (C7) -/

theorem chainTo_nil (p : Nat) (q : Option Nat) : chainTo p [] q = false := rfl

theorem chainTo_singleton (p s : Nat) (eo : Option Nat) (j : Jst) (q : Option Nat) :
    chainTo p [(s, eo, j)] q = (s == p && eo == q) := rfl

theorem chainTo_cons_cons (p s e : Nat) (j : Jst) (c : Span) (t : List Span)
    (q : Option Nat) :
    chainTo p ((s, some e, j) :: c :: t) q = (s == p && chainTo e (c :: t) q) := rfl

theorem chainTo_cons_none (p s : Nat) (j : Jst) (c : Span) (t : List Span)
    (q : Option Nat) :
    chainTo p ((s, none, j) :: c :: t) q = false := rfl

theorem mergeGo_bchain : ∀ fuel pos lbs rbs, bchain pos (mergeGo fuel pos lbs rbs) = true := by
  intro fuel
  induction fuel with
  | zero => intro pos lbs rbs; cases lbs <;> cases rbs <;> rfl
  | succ fuel ih =>
    intro pos lbs rbs
    match lbs, rbs with
    | [], [] => rfl
    | l :: ls, [] => simp [mergeGo, bchain, ih]
    | [], r :: rs => simp [mergeGo, bchain, ih]
    | l :: ls, r :: rs =>
      by_cases h : l < r
      · simp [mergeGo, bchain, h, ih]
      · simp [mergeGo, bchain, h, ih]

theorem bchain_tiles :
    ∀ (l : List (Nat × Nat × Jst)) (pos : Nat) (lastSpan : Nat × Nat × Jst),
      bchain pos l = true → l.getLast? = some lastSpan →
      chainTo pos (l.map (fun c => (c.1, some c.2.1, c.2.2)) ++
        [(lastSpan.2.1, none, Jst.left)]) none = true := by
  intro l
  induction l with
  | nil => intro pos lastSpan _ hl; cases hl
  | cons c t ih =>
    intro pos lastSpan h hl
    obtain ⟨s, e, j⟩ := c
    rw [bchain, Bool.and_eq_true] at h
    have hs : s = pos := by simpa using h.1
    cases t with
    | nil =>
      have hls : (s, e, j) = lastSpan := by simpa using hl
      rw [← hls]
      simp only [List.map_cons, List.map_nil, List.nil_append, List.cons_append]
      rw [chainTo_cons_cons]
      simp [chainTo_singleton, hs]
    | cons c' t' =>
      rw [List.getLast?_cons_cons] at hl
      have hrec := ih e lastSpan h.2 hl
      simp only [List.map_cons, List.cons_append] at hrec ⊢
      rw [chainTo_cons_cons]
      simp [hs, hrec]

theorem splitOne_chainTo (div : Char) (nb : List Line) (c : Span) (out : List Span)
    (h : splitOne div nb c = .ok out) : chainTo c.1 out c.2.1 = true := by
  obtain ⟨s, eo, j⟩ := c
  cases j with
  | left =>
    cases eo with
    | none =>
      simp only [splitOne] at h
      rw [← Except.ok.inj h]
      simp [chainTo_singleton]
    | some ce =>
      simp only [splitOne] at h
      rw [← Except.ok.inj h]
      simp [chainTo_singleton]
  | right =>
    cases eo with
    | none =>
      simp only [splitOne] at h
      exact Except.noConfusion h
    | some ce =>
      simp only [splitOne] at h
      unfold splitRight at h
      by_cases hc : (!anyShort nb s && nb.all (fun l => l.getD s div != div)) = true
      · rw [if_pos hc] at h
        cases hf : findSplitGo div nb s (ce - s) with
        | error e => rw [hf] at h; exact Except.noConfusion h
        | ok o =>
          rw [hf] at h
          cases o with
          | none =>
            rw [← Except.ok.inj h]
            simp [chainTo_singleton]
          | some ncs =>
            rw [← Except.ok.inj h]
            rw [chainTo_cons_cons]
            simp [chainTo_singleton]
      · rw [if_neg hc] at h
        rw [← Except.ok.inj h]
        simp [chainTo_singleton]

theorem chainTo_append (seg : List Span) :
    ∀ (p m : Nat) (rest : List Span) (q : Option Nat),
      chainTo p seg (some m) = true → chainTo m rest q = true →
      chainTo p (seg ++ rest) q = true := by
  induction seg with
  | nil =>
    intro p m rest q h1 _
    rw [chainTo_nil] at h1
    exact Bool.noConfusion h1
  | cons c t ih =>
    intro p m rest q h1 h2
    obtain ⟨s, eo, j⟩ := c
    cases t with
    | nil =>
      rw [chainTo_singleton, Bool.and_eq_true] at h1
      have hs : s = p := by simpa using h1.1
      have he : eo = some m := by simpa using h1.2
      subst he
      cases rest with
      | nil =>
        rw [chainTo_nil] at h2
        exact Bool.noConfusion h2
      | cons r rs =>
        simp only [List.cons_append, List.nil_append]
        rw [chainTo_cons_cons]
        simp [hs, h2]
    | cons c' t' =>
      cases heo : eo with
      | none =>
        rw [heo, chainTo_cons_none] at h1
        exact Bool.noConfusion h1
      | some e =>
        rw [heo, chainTo_cons_cons, Bool.and_eq_true] at h1
        have hs : s = p := by simpa using h1.1
        have hrec := ih e m rest q h1.2 h2
        simp only [List.cons_append] at hrec ⊢
        rw [chainTo_cons_cons]
        simp [hs, hrec]

theorem splitCore_chainTo (div : Char) (nb : List Line) :
    ∀ (cols out : List Span) (p : Nat) (q : Option Nat),
      chainTo p cols q = true → splitCore div nb cols = .ok out →
      chainTo p out q = true := by
  intro cols
  induction cols with
  | nil =>
    intro out p q h _
    rw [chainTo_nil] at h
    exact Bool.noConfusion h
  | cons c t ih =>
    intro out p q h hs
    unfold splitCore at hs
    cases h1 : splitOne div nb c with
    | error e => rw [h1] at hs; exact Except.noConfusion hs
    | ok seg =>
      rw [h1] at hs
      cases h2 : splitCore div nb t with
      | error e =>
        rw [h2] at hs
        exact Except.noConfusion hs
      | ok restl =>
        rw [h2] at hs
        have hout : out = seg ++ restl := (Except.ok.inj hs).symm
        subst hout
        obtain ⟨s, eo, j⟩ := c
        cases t with
        | nil =>
          rw [chainTo_singleton, Bool.and_eq_true] at h
          have hsp : s = p := by simpa using h.1
          have heq : eo = q := by simpa using h.2
          have hrl : restl = [] := by
            have he : splitCore div nb ([] : List Span) = .ok [] := rfl
            rw [he] at h2
            exact (Except.ok.inj h2).symm
          subst hrl
          rw [List.append_nil]
          have := splitOne_chainTo div nb (s, eo, j) seg h1
          simpa [hsp, heq] using this
        | cons c' t' =>
          cases heo : eo with
          | none =>
            rw [heo, chainTo_cons_none] at h
            exact Bool.noConfusion h
          | some e =>
            rw [heo, chainTo_cons_cons, Bool.and_eq_true] at h
            have hsp : s = p := by simpa using h.1
            have hseg := splitOne_chainTo div nb (s, some e, j) seg (heo ▸ h1)
            have hrest := ih restl e q h.2 h2
            have := chainTo_append seg s e restl q (by simpa using hseg) hrest
            simpa [hsp] using this

theorem exceptOk_bind {α β : Type} (a : α) (f : α → Except Err β) :
    (Except.ok a >>= f) = f a := rfl

theorem mergeColumns_chainTo (vlb vrb : List Nat) (cols0 : List Span)
    (h : mergeColumns vlb vrb = .ok cols0) : chainTo 0 cols0 none = true := by
  unfold mergeColumns at h
  cases hm : (mergeGo (vlb.length + vrb.length) 0 vlb vrb).getLast? with
  | none => rw [hm] at h; exact Except.noConfusion h
  | some lastSpan =>
    rw [hm] at h
    have hc : cols0 = (mergeGo (vlb.length + vrb.length) 0 vlb vrb).map
        (fun c => (c.1, some c.2.1, c.2.2)) ++ [(lastSpan.2.1, none, Jst.left)] :=
      (Except.ok.inj h).symm
    rw [hc]
    exact bchain_tiles _ 0 lastSpan (mergeGo_bchain _ 0 vlb vrb) hm

/-- C7, confirmed: whenever the stages succeed, the final column spans tile
the line — the first span starts at 0, every bounded span's end is the next
span's start, and the last span's end is unbounded. -/
theorem claim_C7 (lines : List Line) (st : Stages) (h : parseStages lines = .ok st) :
    chainTo 0 st.columns none = true := by
  unfold parseStages at h
  cases hsan : sanitizeLines lines with
  | nil =>
    rw [hsan] at h
    exact Except.noConfusion h
  | cons line0 rest =>
    rw [hsan] at h
    have h' : stagesFrom (dividerOf line0) (subColons line0) rest = .ok st := h
    unfold stagesFrom at h'
    cases hv1 : validBoundaries (checkLb (dividerOf line0)) rest
        (0 :: lbScan (dividerOf line0) (subColons line0)) with
    | error e => rw [hv1] at h'; exact Except.noConfusion h'
    | ok vlb =>
      simp only [hv1, exceptOk_bind] at h'
      cases hv2 : validBoundaries (checkRb (dividerOf line0)) rest
          (rbScan (dividerOf line0) (subColons line0)) with
      | error e => rw [hv2] at h'; exact Except.noConfusion h'
      | ok vrb =>
        simp only [hv2, exceptOk_bind] at h'
        cases hm : mergeColumns vlb vrb with
        | error e => rw [hm] at h'; exact Except.noConfusion h'
        | ok cols0 =>
          simp only [hm, exceptOk_bind] at h'
          cases hsp : splitColumns (dividerOf line0) (subColons line0 :: rest) cols0 with
          | error e => rw [hsp] at h'; exact Except.noConfusion h'
          | ok cols =>
            simp only [hsp, exceptOk_bind] at h'
            have hst : st.columns = cols := by
              rw [← Except.ok.inj h']
            rw [hst]
            exact splitCore_chainTo (dividerOf line0)
              (nonBlank (subColons line0 :: rest)) cols0 cols 0 none
              (mergeColumns_chainTo vlb vrb cols0 hm) hsp

theorem claim_C7_witness :
    parseStages (["A B", "x y"].map String.toList) =
      .ok ⟨' ', ["", "A", "", "B"].map String.toList,
        ["", "A", "_2", "B"].map String.toList,
        [(0, some 0, Jst.left), (0, some 1, Jst.right), (1, some 2, Jst.left),
         (2, none, Jst.left)],
        ["x y".toList]⟩ ∧
    chainTo 0 [(0, some 0, Jst.left), (0, some 1, Jst.right), (1, some 2, Jst.left),
      (2, none, Jst.left)] none = true :=
  ⟨by decide,
    claim_C7 (["A B", "x y"].map String.toList)
      ⟨' ', ["", "A", "", "B"].map String.toList,
        ["", "A", "_2", "B"].map String.toList,
        [(0, some 0, Jst.left), (0, some 1, Jst.right), (1, some 2, Jst.left),
         (2, none, Jst.left)],
        ["x y".toList]⟩ (by decide)⟩

/-! ### Structure of the Header Deduplicator's occurrence counters -/

theorem probeGo_free (this : Str) (ks : List (Str × Nat)) :
    ∀ (fuel incr : Nat) (bs : List Str),
      (∃ j, incr ≤ j ∧ j < incr + fuel ∧ (this, j) ∉ ks) →
      (this, (probeGo this ks fuel incr bs).1) ∉ ks := by
  intro fuel
  induction fuel with
  | zero =>
    rintro incr bs ⟨j, h1, h2, _⟩
    omega
  | succ fuel ih =>
    intro incr bs hj
    by_cases hmem : (this, incr) ∈ ks
    · rw [probeGo, if_pos hmem]
      apply ih
      obtain ⟨j, h1, h2, h3⟩ := hj
      refine ⟨j, ?_, by omega, h3⟩
      rcases Nat.eq_or_lt_of_le h1 with he | hlt
      · exact absurd (he ▸ hmem) h3
      · omega
    · rw [probeGo, if_neg hmem]
      exact hmem

theorem exists_free_incr (this : Str) (ks : List (Str × Nat)) :
    ∃ j, 1 ≤ j ∧ j < 1 + (ks.length + 1) ∧ (this, j) ∉ ks := by
  by_contra hcon
  push_neg at hcon
  have hmaps : ∀ j ∈ Finset.Icc 1 (ks.length + 1), (this, j) ∈ ks.toFinset := by
    intro j hj
    rw [List.mem_toFinset]
    obtain ⟨ha, hb⟩ := Finset.mem_Icc.mp hj
    exact hcon j ha (by omega)
  have hinj : Set.InjOn (fun j => (this, j))
      ((Finset.Icc 1 (ks.length + 1) : Finset Nat) : Set Nat) := by
    intro a _ b _ hab
    exact (Prod.mk.injEq _ _ _ _ ▸ hab : _ ∧ _).2
  have hcard := Finset.card_le_card_of_injOn _ hmaps hinj
  rw [Nat.card_Icc] at hcard
  have := List.toFinset_card_le (l := ks)
  omega

theorem probeGo_result_notMem (this : Str) (ks : List (Str × Nat)) (bs : List Str) :
    (this, (probeGo this ks (ks.length + 1) 1 bs).1) ∉ ks :=
  probeGo_free this ks (ks.length + 1) 1 bs (exists_free_incr this ks)

theorem newkeysGo_nodup : ∀ (hs : List Str) (ks : List (Str × Nat)) (bs : List Str),
    ks.Nodup → (newkeysGo hs ks bs).1.Nodup := by
  intro hs
  induction hs with
  | nil => intro ks bs h; exact h
  | cons hd t ih =>
    intro ks bs h
    simp only [newkeysGo]
    apply ih
    rw [List.nodup_append]
    refine ⟨h, List.nodup_singleton _, ?_⟩
    intro a ha hb
    rw [List.mem_singleton] at hb
    exact probeGo_result_notMem hd ks bs (hb ▸ ha)

theorem newkeysGo_mono : ∀ (hs : List Str) (ks : List (Str × Nat)) (bs : List Str)
    (p : Str × Nat), p ∈ ks → p ∈ (newkeysGo hs ks bs).1 := by
  intro hs
  induction hs with
  | nil => intro ks bs p h; exact h
  | cons hd t ih =>
    intro ks bs p h
    simp only [newkeysGo]
    exact ih _ _ p (List.mem_append_left _ h)

theorem newkeysGo_strings : ∀ (hs : List Str) (ks : List (Str × Nat)) (bs : List Str)
    (p : Str × Nat), p ∈ (newkeysGo hs ks bs).1 → p.1 ∈ ks.map Prod.fst ∨ p.1 ∈ hs := by
  intro hs
  induction hs with
  | nil =>
    intro ks bs p h
    exact Or.inl (List.mem_map_of_mem _ h)
  | cons hd t ih =>
    intro ks bs p h
    simp only [newkeysGo] at h
    rcases ih _ _ p h with hk | ht
    · rw [List.map_append, List.mem_append] at hk
      rcases hk with hk1 | hk2
      · exact Or.inl hk1
      · simp at hk2
        exact Or.inr (hk2 ▸ List.mem_cons_self _ _)
    · exact Or.inr (List.mem_cons_of_mem _ ht)

theorem probeGo_bs (this : Str) (ks : List (Str × Nat)) :
    ∀ (fuel incr : Nat) (bs : List Str) (b : Str),
      b ∈ (probeGo this ks fuel incr bs).2 →
      b ∈ bs ∨ (b = this ∧ this ≠ [] ∧ (this, incr) ∈ ks) := by
  intro fuel
  induction fuel with
  | zero => intro incr bs b h; exact Or.inl h
  | succ fuel ih =>
    intro incr bs b h
    by_cases hmem : (this, incr) ∈ ks
    · rw [probeGo, if_pos hmem] at h
      rcases ih (incr+1) _ b h with hb | ⟨he, hne, _⟩
      · by_cases hthis : this = []
        · rw [if_pos hthis] at hb
          exact Or.inl hb
        · rw [if_neg hthis] at hb
          unfold bumpAdd at hb
          by_cases hmem2 : this ∈ bs
          · rw [if_pos hmem2] at hb
            exact Or.inl hb
          · rw [if_neg hmem2] at hb
            rcases List.mem_append.mp hb with h1 | h2
            · exact Or.inl h1
            · exact Or.inr ⟨List.mem_singleton.mp h2, hthis, hmem⟩
      · exact Or.inr ⟨he, hne, hmem⟩
    · rw [probeGo, if_neg hmem] at h
      exact Or.inl h

theorem newkeysGo_bs : ∀ (hs : List Str) (ks : List (Str × Nat)) (bs : List Str)
    (b : Str), b ∈ (newkeysGo hs ks bs).2 →
    b ∈ bs ∨ (b ∈ hs ∧ b ≠ [] ∧ (b, 1) ∈ (newkeysGo hs ks bs).1) := by
  intro hs
  induction hs with
  | nil => intro ks bs b h; exact Or.inl h
  | cons hd t ih =>
    intro ks bs b h
    simp only [newkeysGo] at h ⊢
    rcases ih _ _ b h with hb | ⟨hbt, hbne, hb1⟩
    · rcases probeGo_bs hd ks (ks.length + 1) 1 bs b hb with h1 | ⟨he, hne, hmem⟩
      · exact Or.inl h1
      · subst he
        refine Or.inr ⟨List.mem_cons_self _ _, hne, ?_⟩
        exact newkeysGo_mono t _ _ (b, 1) (List.mem_append_left _ hmem)
    · exact Or.inr ⟨List.mem_cons_of_mem _ hbt, hbne, hb1⟩

theorem bumpAdd_nodup (bs : List Str) (h : Str) (hn : bs.Nodup) : (bumpAdd bs h).Nodup := by
  unfold bumpAdd
  by_cases hm : h ∈ bs
  · rw [if_pos hm]; exact hn
  · rw [if_neg hm]
    rw [List.nodup_append]
    exact ⟨hn, List.nodup_singleton _, fun a ha hb => hm (List.mem_singleton.mp hb ▸ ha)⟩

theorem probeGo_bs_nodup (this : Str) (ks : List (Str × Nat)) :
    ∀ (fuel incr : Nat) (bs : List Str), bs.Nodup → (probeGo this ks fuel incr bs).2.Nodup := by
  intro fuel
  induction fuel with
  | zero => intro incr bs h; exact h
  | succ fuel ih =>
    intro incr bs h
    by_cases hmem : (this, incr) ∈ ks
    · rw [probeGo, if_pos hmem]
      apply ih
      by_cases hthis : this = []
      · rw [if_pos hthis]; exact h
      · rw [if_neg hthis]; exact bumpAdd_nodup bs this h
    · rw [probeGo, if_neg hmem]
      exact h

theorem newkeysGo_bs_nodup : ∀ (hs : List Str) (ks : List (Str × Nat)) (bs : List Str),
    bs.Nodup → (newkeysGo hs ks bs).2.Nodup := by
  intro hs
  induction hs with
  | nil => intro ks bs h; exact h
  | cons hd t ih =>
    intro ks bs h
    simp only [newkeysGo]
    exact ih _ _ (probeGo_bs_nodup hd ks (ks.length + 1) 1 bs h)

/-! ### The key `"|"` occurs at most once among the final keys (for C10) -/

theorem fmtKey_def (h : Str) (i : Nat) :
    fmtKey (h, i) = if i = 1 then h else h ++ '_' :: natDigits i := rfl

theorem fmtKey_eq_pipe (h : Str) (i : Nat) (hf : fmtKey (h, i) = ['|']) :
    h = ['|'] ∧ i = 1 := by
  rw [fmtKey_def] at hf
  by_cases hi : i = 1
  · rw [if_pos hi] at hf
    exact ⟨hf, hi⟩
  · rw [if_neg hi] at hf
    exfalso
    have hu : '_' ∈ h ++ '_' :: natDigits i :=
      List.mem_append_right _ (List.mem_cons_self _ _)
    rw [hf] at hu
    simp at hu

theorem countP_decide_eq_le_one {α : Type} [DecidableEq α] (x : α) :
    ∀ l : List α, l.Nodup → l.countP (fun p => decide (p = x)) ≤ 1 := by
  intro l
  induction l with
  | nil => intro _; simp
  | cons a t ih =>
    intro hnd
    rw [List.nodup_cons] at hnd
    rw [List.countP_cons]
    by_cases ha : a = x
    · have h0 : t.countP (fun p => decide (p = x)) = 0 := by
        rw [List.countP_eq_zero]
        intro p hp
        simp only [decide_eq_true_eq]
        intro he
        exact hnd.1 ((he.trans ha.symm) ▸ hp)
      rw [h0]
      simp [ha]
    · have := ih hnd.2
      simp [ha]
      omega

theorem map_fmt_count_pipe (ks : List (Str × Nat)) (hnd : ks.Nodup) :
    (ks.map fmtKey).count ['|'] ≤ 1 := by
  rw [List.count_eq_countP, List.countP_map]
  have hcg : ks.countP ((fun x => x == (['|'] : Str)) ∘ fmtKey) =
      ks.countP (fun p => decide (p = ((['|'] : Str), 1))) := by
    apply List.countP_congr
    intro p _
    obtain ⟨p1, p2⟩ := p
    simp only [Function.comp, beq_iff_eq, decide_eq_true_eq]
    constructor
    · intro hp
      obtain ⟨h1, h2⟩ := fmtKey_eq_pipe p1 p2 hp
      rw [h1, h2]
    · intro hp
      rw [hp]
      rfl
  rw [hcg]
  exact countP_decide_eq_le_one _ ks hnd

theorem bumpListOne_count_le (b x : Str) (hx : x ≠ b ++ ['_', '1']) :
    ∀ l : List Str, (bumpListOne l b).count x ≤ l.count x := by
  intro l
  induction l with
  | nil => exact Nat.le_refl _
  | cons y t ih =>
    unfold bumpListOne
    by_cases hy : y = b
    · rw [if_pos hy]
      rw [List.count_cons, List.count_cons]
      have hne : ((y ++ ['_', '1']) == x) = false := by
        rw [beq_eq_false_iff_ne]
        rw [hy]
        exact fun he => hx he.symm
      rw [hne]
      simp only [Bool.false_eq_true, if_false, Nat.add_zero]
      exact Nat.le_add_right _ _
    · rw [if_neg hy]
      rw [List.count_cons, List.count_cons]
      have := ih
      omega

theorem foldl_bump_count_pipe_le (bs : List Str) :
    ∀ l : List Str, (bs.foldl bumpListOne l).count ['|'] ≤ l.count ['|'] := by
  induction bs with
  | nil => intro l; exact Nat.le_refl _
  | cons b t ih =>
    intro l
    have h1 : (bumpListOne l b).count ['|'] ≤ l.count ['|'] := by
      apply bumpListOne_count_le
      intro he
      have := congrArg List.length he
      simp at this
    exact Nat.le_trans (ih (bumpListOne l b)) h1

theorem dedupHeaders_count_pipe (headers : List Str) :
    (dedupHeaders headers).count ['|'] ≤ 1 := by
  unfold dedupHeaders
  exact Nat.le_trans
    (foldl_bump_count_pipe_le _ _)
    (map_fmt_count_pipe _ (newkeysGo_nodup headers [] [] List.nodup_nil))

theorem countP_fst_zip_le (k : Str) :
    ∀ (l1 : List Str) (l2 : List Str),
      (l1.zip l2).countP (fun q => q.1 == k) ≤ l1.count k := by
  intro l1
  induction l1 with
  | nil => intro l2; simp
  | cons n nt ih =>
    intro l2
    cases l2 with
    | nil => simp
    | cons v vt =>
      rw [List.zip_cons_cons, List.countP_cons, List.count_cons]
      dsimp only
      have := ih vt
      omega

theorem rowPairs_countKey_le (div : Char) (nhs : List Str) (cols : List Span)
    (line : Line) (k : Str) :
    countKey k (rowPairs div nhs cols line) ≤ nhs.count k := by
  unfold countKey rowPairs
  exact Nat.le_trans
    (List.Sublist.countP_le _ (List.filter_sublist _))
    (countP_fst_zip_le k nhs _)

/-! ### `OrderedDict` construction: last value wins, keys unique (for C10) -/

theorem countP_decide_eq_of_mem {α : Type} [DecidableEq α] (x : α) :
    ∀ l : List α, l.Nodup → x ∈ l → l.countP (fun y => decide (y = x)) = 1 := by
  intro l
  induction l with
  | nil => intro _ h; cases h
  | cons a t ih =>
    intro hnd hm
    rw [List.nodup_cons] at hnd
    rw [List.countP_cons]
    by_cases ha : a = x
    · have h0 : t.countP (fun y => decide (y = x)) = 0 := by
        rw [List.countP_eq_zero]
        intro p hp
        simp only [decide_eq_true_eq]
        intro he
        exact hnd.1 ((he.trans ha.symm) ▸ hp)
      rw [h0]
      simp [ha]
    · have hmt : x ∈ t := by
        rcases List.mem_cons.mp hm with h1 | h2
        · exact absurd h1.symm ha
        · exact h2
      rw [ih hnd.2 hmt]
      simp [ha]

theorem odInsert_map_fst (d : List (Str × Str)) (p : Str × Str) :
    (odInsert d p).map Prod.fst =
      if p.1 ∈ d.map Prod.fst then d.map Prod.fst else d.map Prod.fst ++ [p.1] := by
  unfold odInsert
  by_cases hc : p.1 ∈ d.map Prod.fst
  · rw [if_pos hc, if_pos hc]
    rw [List.map_map]
    apply List.map_congr_left
    intro q _
    by_cases hq : q.1 = p.1 <;> simp [hq]
  · rw [if_neg hc, if_neg hc]
    simp

theorem odInsert_nodupKeys (d : List (Str × Str)) (p : Str × Str)
    (h : (d.map Prod.fst).Nodup) : ((odInsert d p).map Prod.fst).Nodup := by
  rw [odInsert_map_fst]
  by_cases hc : p.1 ∈ d.map Prod.fst
  · rw [if_pos hc]; exact h
  · rw [if_neg hc]
    rw [List.nodup_append]
    refine ⟨h, List.nodup_singleton _, fun a ha hb => ?_⟩
    rw [List.mem_singleton] at hb
    exact hc (hb ▸ ha)

theorem filter_odInsert_self (d : List (Str × Str)) (p : Str × Str)
    (h : (d.map Prod.fst).Nodup) :
    (odInsert d p).filter (fun q => q.1 == p.1) = [(p.1, p.2)] := by
  unfold odInsert
  by_cases hc : p.1 ∈ d.map Prod.fst
  · rw [if_pos hc]
    rw [List.filter_map]
    have hpe : ((fun q : Str × Str => q.1 == p.1) ∘
        (fun q => if q.1 = p.1 then (q.1, p.2) else q)) =
        fun q : Str × Str => q.1 == p.1 := by
      funext q
      by_cases hq : q.1 = p.1 <;> simp [hq]
    rw [hpe]
    have hlen : (d.filter (fun q => q.1 == p.1)).length = 1 := by
      rw [← List.countP_eq_length_filter]
      have h1 : d.countP (fun q => q.1 == p.1) =
          d.countP (fun q => decide (q.1 = p.1)) := by
        apply List.countP_congr
        intro q _
        simp
      have h2 : d.countP (fun q => decide (q.1 = p.1)) =
          (d.map Prod.fst).countP (fun x => decide (x = p.1)) := by
        rw [List.countP_map]
        rfl
      rw [h1, h2]
      exact countP_decide_eq_of_mem p.1 _ h hc
    obtain ⟨q0, hq0⟩ := List.length_eq_one.mp hlen
    have hq0m : q0 ∈ d.filter (fun q => q.1 == p.1) := by
      rw [hq0]; exact List.mem_singleton.mpr rfl
    have hq01 : q0.1 = p.1 := by
      have := (List.mem_filter.mp hq0m).2
      simpa using this
    rw [hq0]
    simp [hq01]
  · rw [if_neg hc]
    rw [List.filter_append]
    have h1 : d.filter (fun q => q.1 == p.1) = [] := by
      rw [List.filter_eq_nil_iff]
      intro q hq
      simp only [beq_iff_eq]
      intro he
      exact hc (he ▸ List.mem_map_of_mem _ hq)
    rw [h1]
    simp

theorem filter_odInsert_other (d : List (Str × Str)) (p : Str × Str) (k : Str)
    (hk : k ≠ p.1) :
    (odInsert d p).filter (fun q => q.1 == k) = d.filter (fun q => q.1 == k) := by
  unfold odInsert
  by_cases hc : p.1 ∈ d.map Prod.fst
  · rw [if_pos hc]
    rw [List.filter_map]
    have hpe : ((fun q : Str × Str => q.1 == k) ∘
        (fun q => if q.1 = p.1 then (q.1, p.2) else q)) =
        fun q : Str × Str => q.1 == k := by
      funext q
      by_cases hq : q.1 = p.1 <;> simp [hq]
    rw [hpe]
    have hid : ∀ q ∈ d.filter (fun q : Str × Str => q.1 == k),
        (if q.1 = p.1 then (q.1, p.2) else q) = q := by
      intro q hq
      have hq1 : q.1 = k := by
        have := (List.mem_filter.mp hq).2
        simpa using this
      rw [if_neg (by rw [hq1]; exact hk)]
    calc (d.filter (fun q : Str × Str => q.1 == k)).map
          (fun q => if q.1 = p.1 then (q.1, p.2) else q)
        = (d.filter (fun q : Str × Str => q.1 == k)).map id := List.map_congr_left hid
      _ = d.filter (fun q : Str × Str => q.1 == k) := List.map_id _
  · rw [if_neg hc]
    rw [List.filter_append]
    have h2 : List.filter (fun q : Str × Str => q.1 == k) [p] = [] := by
      have : (p.1 == k) = false := beq_eq_false_iff_ne.mpr (fun he => hk he.symm)
      simp [List.filter, this]
    rw [h2, List.append_nil]

theorem od_filter_spec (k : Str) :
    ∀ (ps acc : List (Str × Str)), (acc.map Prod.fst).Nodup →
      ((ps.foldl odInsert acc).filter (fun q => q.1 == k)) =
        (match (ps.filter (fun q => q.1 == k)).getLast? with
         | none => acc.filter (fun q => q.1 == k)
         | some q => [(k, q.2)]) := by
  intro ps
  induction ps with
  | nil =>
    intro acc h
    simp
  | cons p t ih =>
    intro acc h
    rw [List.foldl_cons]
    rw [ih (odInsert acc p) (odInsert_nodupKeys acc p h)]
    by_cases hp : p.1 = k
    · subst hp
      have hf : (p :: t).filter (fun q => q.1 == p.1) =
          p :: t.filter (fun q => q.1 == p.1) := by
        rw [List.filter_cons]
        simp
      rw [hf]
      cases hg : (t.filter (fun q => q.1 == p.1)).getLast? with
      | none =>
        have ht : t.filter (fun q => q.1 == p.1) = [] :=
          List.getLast?_eq_none_iff.mp hg
        rw [ht]
        simp only [List.getLast?_singleton]
        exact filter_odInsert_self acc p h
      | some q =>
        cases htf : t.filter (fun q => q.1 == p.1) with
        | nil => rw [htf] at hg; cases hg
        | cons c ct =>
          rw [htf] at hg
          rw [List.getLast?_cons_cons, hg]
    · have hf : (p :: t).filter (fun q => q.1 == k) =
          t.filter (fun q => q.1 == k) := by
        rw [List.filter_cons]
        have : (p.1 == k) = false := beq_eq_false_iff_ne.mpr hp
        simp [this]
      rw [hf]
      cases hg : (t.filter (fun q => q.1 == k)).getLast? with
      | none => exact filter_odInsert_other acc p k (fun he => hp he.symm)
      | some q => rfl

/-- A successful run's final keys are the deduplication of its header texts. -/
theorem parseStages_newheaders (lines : List Line) (st : Stages)
    (h : parseStages lines = .ok st) : st.newheaders = dedupHeaders st.headers := by
  unfold parseStages at h
  cases hsan : sanitizeLines lines with
  | nil => rw [hsan] at h; exact Except.noConfusion h
  | cons line0 rest =>
    rw [hsan] at h
    have h' : stagesFrom (dividerOf line0) (subColons line0) rest = .ok st := h
    unfold stagesFrom at h'
    cases hv1 : validBoundaries (checkLb (dividerOf line0)) rest
        (0 :: lbScan (dividerOf line0) (subColons line0)) with
    | error e => rw [hv1] at h'; exact Except.noConfusion h'
    | ok vlb =>
      simp only [hv1, exceptOk_bind] at h'
      cases hv2 : validBoundaries (checkRb (dividerOf line0)) rest
          (rbScan (dividerOf line0) (subColons line0)) with
      | error e => rw [hv2] at h'; exact Except.noConfusion h'
      | ok vrb =>
        simp only [hv2, exceptOk_bind] at h'
        cases hm : mergeColumns vlb vrb with
        | error e => rw [hm] at h'; exact Except.noConfusion h'
        | ok cols0 =>
          simp only [hm, exceptOk_bind] at h'
          cases hsp : splitColumns (dividerOf line0) (subColons line0 :: rest) cols0 with
          | error e => rw [hsp] at h'; exact Except.noConfusion h'
          | ok cols =>
            simp only [hsp, exceptOk_bind] at h'
            rw [← Except.ok.inj h']

/-- C10, confirmed: if two or more valid pairs of one data line carry the same
final key `k`, the produced record binds `k` exactly once, to the value of the
rightmost such pair (the `OrderedDict` update overwrites earlier values in
place).  The hypothesis is only satisfiable when deduplicated keys collide,
and the colliding key can never be `"|"` (which occurs at most once among the
final keys), so the unconditional `del d["|"]` does not interfere. -/
theorem claim_C10 (lines : List Line) (st : Stages) (hp : parseStages lines = .ok st)
    (line : Line) (_hl : line ∈ st.datalines) (k : Str) (r : List (Str × Str))
    (hr : extractRow st.divider st.newheaders st.columns line = some r)
    (h2 : 2 ≤ countKey k (rowPairs st.divider st.newheaders st.columns line)) :
    r.filter (fun q => q.1 == k) =
      [(k, (((rowPairs st.divider st.newheaders st.columns line).filter
        (fun q => q.1 == k)).getLastD ([], [])).2)] := by
  have hk : k ≠ ['|'] := by
    intro he
    subst he
    have hle := rowPairs_countKey_le st.divider st.newheaders st.columns line ['|']
    have hnh := parseStages_newheaders lines st hp
    have hpipe : st.newheaders.count ['|'] ≤ 1 := by
      rw [hnh]; exact dedupHeaders_count_pipe st.headers
    omega
  have hlen : 1 ≤ ((rowPairs st.divider st.newheaders st.columns line).filter
      (fun q => q.1 == k)).length := by
    rw [← List.countP_eq_length_filter]
    unfold countKey at h2
    omega
  unfold extractRow at hr
  have hne : (rowPairs st.divider st.newheaders st.columns line).isEmpty = false := by
    cases hpse : rowPairs st.divider st.newheaders st.columns line with
    | nil =>
      exfalso
      unfold countKey at h2
      rw [hpse] at h2
      simp at h2
    | cons a l => simp [hpse]
  rw [hne] at hr
  simp only [Bool.false_eq_true, if_false] at hr
  have hre : r = delKey ['|']
      (odFromPairs (rowPairs st.divider st.newheaders st.columns line)) :=
    (Option.some.inj hr).symm
  rw [hre]
  unfold delKey odFromPairs
  rw [List.filter_filter]
  have hcong : ∀ a ∈ (rowPairs st.divider st.newheaders st.columns line).foldl odInsert [],
      ((a.1 == k) && (a.1 != ['|'])) = (a.1 == k) := by
    intro a _
    by_cases hak : a.1 = k
    · have h1 : (a.1 == k) = true := beq_iff_eq.mpr hak
      have h3 : (a.1 != ['|']) = true := by
        rw [bne_iff_ne]
        rw [hak]
        exact hk
      rw [h1, h3]
      rfl
    · have h1 : (a.1 == k) = false := beq_eq_false_iff_ne.mpr hak
      rw [h1]
      rfl
  rw [List.filter_congr hcong]
  rw [od_filter_spec k _ [] (by simp)]
  cases hg : ((rowPairs st.divider st.newheaders st.columns line).filter
      (fun q => q.1 == k)).getLast? with
  | none =>
    exfalso
    rw [List.getLast?_eq_none_iff] at hg
    rw [hg] at hlen
    simp at hlen
  | some q =>
    rw [List.getLastD_eq_getLast?, hg]
    rfl

theorem claim_C10_witness :
    parseStages (["A   A   A_2", "x   y   z  "].map String.toList) =
      .ok ⟨' ', ["", "A", "", "A", "", "A_2"].map String.toList,
        ["", "A_1", "_2", "A_2", "_3", "A_2"].map String.toList,
        [(0, some 0, Jst.left), (0, some 1, Jst.right), (1, some 4, Jst.left),
         (4, some 5, Jst.right), (5, some 8, Jst.left), (8, none, Jst.left)],
        ["x   y   z  "].map String.toList⟩ ∧
    "x   y   z  ".toList ∈
      (⟨' ', ["", "A", "", "A", "", "A_2"].map String.toList,
        ["", "A_1", "_2", "A_2", "_3", "A_2"].map String.toList,
        [(0, some 0, Jst.left), (0, some 1, Jst.right), (1, some 4, Jst.left),
         (4, some 5, Jst.right), (5, some 8, Jst.left), (8, none, Jst.left)],
        ["x   y   z  "].map String.toList⟩ : Stages).datalines ∧
    2 ≤ countKey "A_2".toList
      (rowPairs ' ' (["", "A_1", "_2", "A_2", "_3", "A_2"].map String.toList)
        [(0, some 0, Jst.left), (0, some 1, Jst.right), (1, some 4, Jst.left),
         (4, some 5, Jst.right), (5, some 8, Jst.left), (8, none, Jst.left)]
        "x   y   z  ".toList) ∧
    ([("A_1".toList, "x".toList), ("A_2".toList, "z".toList)].filter
        (fun q => q.1 == "A_2".toList)) =
      [("A_2".toList,
        (((rowPairs ' ' (["", "A_1", "_2", "A_2", "_3", "A_2"].map String.toList)
          [(0, some 0, Jst.left), (0, some 1, Jst.right), (1, some 4, Jst.left),
           (4, some 5, Jst.right), (5, some 8, Jst.left), (8, none, Jst.left)]
          "x   y   z  ".toList).filter
            (fun q => q.1 == "A_2".toList)).getLastD ([], [])).2)] :=
  ⟨by decide, by decide, by decide,
    claim_C10 (["A   A   A_2", "x   y   z  "].map String.toList)
      ⟨' ', ["", "A", "", "A", "", "A_2"].map String.toList,
        ["", "A_1", "_2", "A_2", "_3", "A_2"].map String.toList,
        [(0, some 0, Jst.left), (0, some 1, Jst.right), (1, some 4, Jst.left),
         (4, some 5, Jst.right), (5, some 8, Jst.left), (8, none, Jst.left)],
        ["x   y   z  "].map String.toList⟩ (by decide)
      "x   y   z  ".toList (by decide) "A_2".toList
      [("A_1".toList, "x".toList), ("A_2".toList, "z".toList)] (by decide) (by decide)⟩

/-! ### Decimal rendering: injectivity and digit shape (for C1) -/

theorem natDigitsGo_irrel : ∀ f g n, n < f → n < g → natDigitsGo f n = natDigitsGo g n := by
  intro f
  induction f with
  | zero => intro g n h _; exact absurd h (Nat.not_lt_zero n)
  | succ f ih =>
    intro g n hf hg
    cases g with
    | zero => exact absurd hg (Nat.not_lt_zero n)
    | succ g =>
      simp only [natDigitsGo]
      by_cases h10 : n < 10
      · rw [if_pos h10, if_pos h10]
      · rw [if_neg h10, if_neg h10]
        congr 1
        have hd := Nat.div_lt_self (show 0 < n by omega) (show 1 < 10 by omega)
        exact ih g (n / 10) (by omega) (by omega)

theorem natDigits_unfold (n : Nat) : natDigits n =
    if n < 10 then [digitChar10 n] else natDigits (n / 10) ++ [digitChar10 (n % 10)] := by
  unfold natDigits
  simp only [natDigitsGo]
  by_cases h10 : n < 10
  · rw [if_pos h10, if_pos h10]
  · rw [if_neg h10, if_neg h10]
    congr 1
    have hd := Nat.div_lt_self (show 0 < n by omega) (show 1 < 10 by omega)
    exact natDigitsGo_irrel n (n / 10 + 1) (n / 10) (by omega) (Nat.lt_succ_self _)

theorem natDigits_ne_nil (n : Nat) : natDigits n ≠ [] := by
  rw [natDigits_unfold]
  by_cases h10 : n < 10
  · rw [if_pos h10]; simp
  · rw [if_neg h10]; simp

theorem digitChar10_isDigit (d : Nat) (hd : d < 10) : (digitChar10 d).isDigit = true := by
  interval_cases d <;> decide

theorem digitChar10_inj (a b : Nat) (ha : a < 10) (hb : b < 10) :
    digitChar10 a = digitChar10 b → a = b := by
  interval_cases a <;> interval_cases b <;> decide

theorem natDigits_digits (n : Nat) : ∀ c ∈ natDigits n, c.isDigit = true := by
  induction n using Nat.strong_induction_on with
  | _ n ih =>
    rw [natDigits_unfold]
    by_cases h10 : n < 10
    · rw [if_pos h10]
      intro c hc
      rw [List.mem_singleton] at hc
      exact hc ▸ digitChar10_isDigit n h10
    · rw [if_neg h10]
      intro c hc
      rcases List.mem_append.mp hc with h1 | h2
      · exact ih (n / 10) (Nat.div_lt_self (by omega) (by omega)) c h1
      · rw [List.mem_singleton] at h2
        exact h2 ▸ digitChar10_isDigit _ (Nat.mod_lt _ (by omega))

theorem natDigits_inj : ∀ m n : Nat, natDigits m = natDigits n → m = n := by
  intro m
  induction m using Nat.strong_induction_on with
  | _ m ih =>
    intro n h
    rw [natDigits_unfold m, natDigits_unfold n] at h
    by_cases hm : m < 10 <;> by_cases hn : n < 10
    · rw [if_pos hm, if_pos hn] at h
      simp only [List.cons.injEq, and_true] at h
      exact digitChar10_inj m n hm hn h
    · rw [if_pos hm, if_neg hn] at h
      exfalso
      have hlen := congrArg List.length h
      simp only [List.length_append, List.length_cons, List.length_nil] at hlen
      exact natDigits_ne_nil (n / 10) (List.length_eq_zero.mp (by omega))
    · rw [if_neg hm, if_pos hn] at h
      exfalso
      have hlen := congrArg List.length h
      simp only [List.length_append, List.length_cons, List.length_nil] at hlen
      exact natDigits_ne_nil (m / 10) (List.length_eq_zero.mp (by omega))
    · rw [if_neg hm, if_neg hn] at h
      obtain ⟨h1, h2⟩ := List.append_inj' h (by simp)
      simp only [List.cons.injEq, and_true] at h2
      have hd : m % 10 = n % 10 :=
        digitChar10_inj _ _ (Nat.mod_lt _ (by omega)) (Nat.mod_lt _ (by omega)) h2
      have hq : m / 10 = n / 10 :=
        ih (m / 10) (Nat.div_lt_self (by omega) (by omega)) (n / 10) h1
      omega

theorem splitFirstMark : ∀ (l1 l2 r1 r2 : List Char), '_' ∉ l1 → '_' ∉ l2 →
    l1 ++ '_' :: r1 = l2 ++ '_' :: r2 → l1 = l2 ∧ r1 = r2 := by
  intro l1
  induction l1 with
  | nil =>
    intro l2 r1 r2 _ h2 he
    cases l2 with
    | nil => simpa using he
    | cons c t =>
      exfalso
      rw [List.nil_append, List.cons_append] at he
      have hc : '_' = c := (List.cons.inj he).1
      exact h2 (hc ▸ List.mem_cons_self c t)
  | cons a t ih =>
    intro l2 r1 r2 h1 h2 he
    cases l2 with
    | nil =>
      exfalso
      rw [List.nil_append, List.cons_append] at he
      have hc : a = '_' := (List.cons.inj he).1
      exact h1 (hc ▸ List.mem_cons_self a t)
    | cons b t2 =>
      rw [List.cons_append, List.cons_append] at he
      have hab := (List.cons.inj he).1
      obtain ⟨ht, hr⟩ := ih t2 r1 r2
        (fun hm => h1 (List.mem_cons_of_mem _ hm))
        (fun hm => h2 (List.mem_cons_of_mem _ hm)) (List.cons.inj he).2
      exact ⟨by rw [hab, ht], hr⟩

theorem suffixKeyInj (h1 h2 : Str) (i1 i2 : Nat)
    (he : h1 ++ '_' :: natDigits i1 = h2 ++ '_' :: natDigits i2) :
    h1 = h2 ∧ i1 = i2 := by
  have hrev := congrArg List.reverse he
  rw [List.reverse_append, List.reverse_append, List.reverse_cons, List.reverse_cons,
    List.append_assoc, List.append_assoc, List.singleton_append,
    List.singleton_append] at hrev
  have hnd1 : '_' ∉ (natDigits i1).reverse := by
    intro hm
    rw [List.mem_reverse] at hm
    exact absurd (natDigits_digits i1 '_' hm) (by decide)
  have hnd2 : '_' ∉ (natDigits i2).reverse := by
    intro hm
    rw [List.mem_reverse] at hm
    exact absurd (natDigits_digits i2 '_' hm) (by decide)
  obtain ⟨hd, hh⟩ := splitFirstMark _ _ _ _ hnd1 hnd2 hrev
  exact ⟨List.reverse_injective hh, natDigits_inj i1 i2 (List.reverse_injective hd)⟩

/-! ### Every suffixed key ends in an underscore and digits (for C1) -/

theorem takeWhile_all_append (p : Char → Bool) : ∀ (l1 l2 : List Char),
    (∀ c ∈ l1, p c = true) →
    List.takeWhile p (l1 ++ l2) = l1 ++ List.takeWhile p l2 := by
  intro l1
  induction l1 with
  | nil => intro l2 _; simp
  | cons a t ih =>
    intro l2 h
    rw [List.cons_append, List.takeWhile_cons, if_pos (h a (List.mem_cons_self _ _))]
    rw [ih l2 (fun c hc => h c (List.mem_cons_of_mem _ hc))]
    rfl

theorem getD_append_len {α : Type} (d : α) : ∀ (l1 : List α) (x : α) (l2 : List α),
    (l1 ++ x :: l2).getD l1.length d = x := by
  intro l1
  induction l1 with
  | nil => intro x l2; rfl
  | cons a t ih => intro x l2; exact ih x l2

theorem endsUDigits_suffix (h : Str) (i : Nat) :
    endsUDigits (h ++ '_' :: natDigits i) = true := by
  unfold endsUDigits
  have hrev : (h ++ '_' :: natDigits i).reverse =
      (natDigits i).reverse ++ '_' :: h.reverse := by
    rw [List.reverse_append, List.reverse_cons, List.append_assoc, List.singleton_append]
  rw [hrev]
  have htw : List.takeWhile Char.isDigit ((natDigits i).reverse ++ '_' :: h.reverse) =
      (natDigits i).reverse := by
    rw [takeWhile_all_append _ _ _ (fun c hc => natDigits_digits i c (List.mem_reverse.mp hc))]
    rw [List.takeWhile_cons, if_neg (by decide : ¬(Char.isDigit '_' = true))]
    simp
  rw [htw]
  rw [Bool.and_eq_true]
  constructor
  · cases hnd : (natDigits i).reverse with
    | nil => exact absurd (by simpa using hnd) (natDigits_ne_nil i)
    | cons a t => rfl
  · rw [getD_append_len]
    exact beq_self_eq_true '_'

theorem underscore_one_eq : (['_', '1'] : List Char) = '_' :: natDigits 1 := rfl

theorem endsUDigits_bump (b : Str) : endsUDigits (b ++ ['_', '1']) = true := by
  rw [underscore_one_eq]
  exact endsUDigits_suffix b 1

/-! ### The bump pass as a pointwise map (for C1) -/

theorem bumpListOne_eq_map (b : Str) : ∀ l : List Str,
    l.countP (fun x => decide (x = b)) ≤ 1 →
    bumpListOne l b = l.map (fun x => if x = b then x ++ ['_', '1'] else x) := by
  intro l
  induction l with
  | nil => intro _; rfl
  | cons y t ih =>
    intro hc
    rw [List.countP_cons] at hc
    unfold bumpListOne
    by_cases hy : y = b
    · rw [if_pos hy, List.map_cons, if_pos hy]
      congr 1
      have ht : t.countP (fun x => decide (x = b)) = 0 := by
        rw [decide_eq_true hy, if_pos rfl] at hc
        omega
      rw [List.countP_eq_zero] at ht
      have hid : ∀ x ∈ t, (if x = b then x ++ ['_', '1'] else x) = x := by
        intro x hx
        refine if_neg (fun he => ?_)
        have := ht x hx
        simp [he] at this
      exact ((List.map_congr_left hid).trans (List.map_id t)).symm
    · rw [if_neg hy, List.map_cons, if_neg hy]
      congr 1
      apply ih
      rw [decide_eq_false hy] at hc
      simp only [Bool.false_eq_true, if_false, Nat.add_zero] at hc
      exact hc

theorem countP_map_bump (b b' : Str) (hne : b' ≠ b) (hne2 : b' ≠ b ++ ['_', '1'])
    (l : List Str) :
    (l.map (fun x => if x = b then x ++ ['_', '1'] else x)).countP
      (fun x => decide (x = b')) = l.countP (fun x => decide (x = b')) := by
  rw [List.countP_map]
  apply List.countP_congr
  intro x _
  simp only [Function.comp, decide_eq_true_eq]
  by_cases hx : x = b
  · rw [if_pos hx]
    constructor
    · intro hh
      exact absurd (hx ▸ hh).symm hne2
    · intro hh
      exact absurd (hh.symm.trans hx) hne
  · rw [if_neg hx]

theorem foldl_bump_eq_map : ∀ (bs : List Str) (l : List Str),
    bs.Nodup → (∀ b ∈ bs, l.countP (fun x => decide (x = b)) ≤ 1) →
    (∀ b ∈ bs, endsUDigits b = false) →
    bs.foldl bumpListOne l = l.map (fun x => if x ∈ bs then x ++ ['_', '1'] else x) := by
  intro bs
  induction bs with
  | nil =>
    intro l _ _ _
    simp
  | cons b bs' ih =>
    intro l hnd hcnt hE
    rw [List.foldl_cons, List.nodup_cons] at *
    rw [bumpListOne_eq_map b l (hcnt b (List.mem_cons_self _ _))]
    rw [ih _ hnd.2
      (fun b' hb' => by
        rw [countP_map_bump b b' (fun he => hnd.1 (he ▸ hb'))
          (fun he => by
            have h1 := hE b' (List.mem_cons_of_mem _ hb')
            rw [he, endsUDigits_bump] at h1
            exact Bool.noConfusion h1)]
        exact hcnt b' (List.mem_cons_of_mem _ hb'))
      (fun b' hb' => hE b' (List.mem_cons_of_mem _ hb'))]
    rw [List.map_map]
    apply List.map_congr_left
    intro x _
    simp only [Function.comp]
    by_cases hx : x = b
    · rw [if_pos hx]
      rw [if_neg (fun hm => by
        have h1 := hE _ (List.mem_cons_of_mem _ hm)
        rw [endsUDigits_bump] at h1
        exact Bool.noConfusion h1)]
      rw [if_pos (hx ▸ List.mem_cons_self b bs')]
    · rw [if_neg hx]
      by_cases hxm : x ∈ bs'
      · rw [if_pos hxm, if_pos (List.mem_cons_of_mem _ hxm)]
      · rw [if_neg hxm, if_neg (fun hm => by
          rcases List.mem_cons.mp hm with h1 | h2
          · exact hx h1
          · exact hxm h2)]

theorem countP_fmt_le_one (ks : List (Str × Nat)) (hnd : ks.Nodup) (b : Str)
    (hb : endsUDigits b = false) :
    (ks.map fmtKey).countP (fun x => decide (x = b)) ≤ 1 := by
  rw [List.countP_map]
  have hcg : ks.countP ((fun x : Str => decide (x = b)) ∘ fmtKey) =
      ks.countP (fun p => decide (p = (b, 1))) := by
    apply List.countP_congr
    intro p _
    obtain ⟨h, i⟩ := p
    simp only [Function.comp, decide_eq_true_eq]
    constructor
    · intro hp
      rw [fmtKey_def] at hp
      by_cases hi : i = 1
      · rw [if_pos hi] at hp
        rw [hp, hi]
      · rw [if_neg hi] at hp
        exfalso
        rw [← hp, endsUDigits_suffix] at hb
        exact Bool.noConfusion hb
    · intro hp
      rw [hp]
      rfl
  rw [hcg]
  exact countP_decide_eq_le_one _ ks hnd

/-- C1, amended: provided no header text itself ends in an underscore followed
by digits, the non-empty final keys produced by the Header Deduplicator are
pairwise distinct.  (Without the proviso a raw header such as `"A_2"` collides
with the suffixed second occurrence of a repeated header `"A"` — see the
counterexample.) -/
theorem claim_C1 (headers : List Str)
    (hf : ∀ h ∈ headers, endsUDigits h = false) :
    ((dedupHeaders headers).filter (fun k => !k.isEmpty)).Nodup := by
  apply List.Nodup.filter
  unfold dedupHeaders
  have hks_nd := newkeysGo_nodup headers [] [] List.nodup_nil
  have hks_str : ∀ p ∈ (newkeysGo headers [] []).1, p.1 ∈ headers := by
    intro p hp
    rcases newkeysGo_strings headers [] [] p hp with h | h
    · simp at h
    · exact h
  have hbs : ∀ b ∈ (newkeysGo headers [] []).2, b ∈ headers := by
    intro b hb
    rcases newkeysGo_bs headers [] [] b hb with h | h
    · simp at h
    · exact h.1
  have hbs_eud : ∀ b ∈ (newkeysGo headers [] []).2, endsUDigits b = false :=
    fun b hb => hf b (hbs b hb)
  rw [foldl_bump_eq_map _ _ (newkeysGo_bs_nodup headers [] [] List.nodup_nil)
      (fun b hb => countP_fmt_le_one _ hks_nd b (hbs_eud b hb)) hbs_eud]
  rw [List.map_map]
  refine List.Nodup.map_on ?_ hks_nd
  intro p1 hp1 p2 hp2 he
  have he1 : endsUDigits p1.1 = false := hf p1.1 (hks_str p1 hp1)
  have he2 : endsUDigits p2.1 = false := hf p2.1 (hks_str p2 hp2)
  obtain ⟨h1, i1⟩ := p1
  obtain ⟨h2, i2⟩ := p2
  simp only [Function.comp] at he
  have hnorm : ∀ (h : Str) (i : Nat),
      (if fmtKey (h, i) ∈ (newkeysGo headers [] []).2
        then fmtKey (h, i) ++ ['_', '1'] else fmtKey (h, i)) =
      (if i = 1
        then (if h ∈ (newkeysGo headers [] []).2 then h ++ '_' :: natDigits 1 else h)
        else h ++ '_' :: natDigits i) := by
    intro h i
    rw [fmtKey_def]
    by_cases hi : i = 1
    · rw [if_pos hi, if_pos hi, underscore_one_eq]
    · have hnm : (h ++ '_' :: natDigits i) ∉ (newkeysGo headers [] []).2 := by
        intro hm
        have hcon := hbs_eud _ hm
        rw [endsUDigits_suffix] at hcon
        exact Bool.noConfusion hcon
      rw [if_neg hi, if_neg hi, if_neg hnm]
  rw [hnorm h1 i1, hnorm h2 i2] at he
  by_cases hi1 : i1 = 1 <;> by_cases hi2 : i2 = 1
  · rw [if_pos hi1, if_pos hi2] at he
    by_cases m1 : h1 ∈ (newkeysGo headers [] []).2 <;>
      by_cases m2 : h2 ∈ (newkeysGo headers [] []).2
    · rw [if_pos m1, if_pos m2] at he
      obtain ⟨hh, -⟩ := suffixKeyInj h1 h2 1 1 he
      rw [hh, hi1, hi2]
    · rw [if_pos m1, if_neg m2] at he
      exfalso
      rw [← he, endsUDigits_suffix] at he2
      exact Bool.noConfusion he2
    · rw [if_neg m1, if_pos m2] at he
      exfalso
      rw [he, endsUDigits_suffix] at he1
      exact Bool.noConfusion he1
    · rw [if_neg m1, if_neg m2] at he
      rw [he, hi1, hi2]
  · rw [if_pos hi1, if_neg hi2] at he
    by_cases m1 : h1 ∈ (newkeysGo headers [] []).2
    · rw [if_pos m1] at he
      obtain ⟨-, hii⟩ := suffixKeyInj h1 h2 1 i2 he
      exact absurd hii.symm hi2
    · rw [if_neg m1] at he
      exfalso
      rw [he, endsUDigits_suffix] at he1
      exact Bool.noConfusion he1
  · rw [if_neg hi1, if_pos hi2] at he
    by_cases m2 : h2 ∈ (newkeysGo headers [] []).2
    · rw [if_pos m2] at he
      obtain ⟨-, hii⟩ := suffixKeyInj h1 h2 i1 1 he
      exact absurd hii hi1
    · rw [if_neg m2] at he
      exfalso
      rw [← he, endsUDigits_suffix] at he2
      exact Bool.noConfusion he2
  · rw [if_neg hi1, if_neg hi2] at he
    obtain ⟨hh, hii⟩ := suffixKeyInj h1 h2 i1 i2 he
    rw [hh, hii]

theorem claim_C1_witness :
    (∀ h ∈ ([['A'], ['A'], ['B'], []] : List Str), endsUDigits h = false) ∧
    ((dedupHeaders [['A'], ['A'], ['B'], []]).filter (fun k => !k.isEmpty)).Nodup :=
  ⟨by decide, claim_C1 [['A'], ['A'], ['B'], []] (by decide)⟩
